import Mathlib

/-!
# Verification of the ExDB key-value store

Shallow embedding of the repository's two C++ sources:

* `src/exDB.cpp` — classes `Storage`, `WAL`, `KeyValueDB` (namespace `KVDB` below);
* `src/unnamed/part_000` — classes `Storage`, `WAL`, `ExDB` (namespace `ExDBi` below).

Modelling conventions:

* A C++ `std::string` is a `Str := List Char`.
* A file's content is a `List Char`; a file that does not exist behaves, for
  `std::ifstream` plus `operator>>`, exactly like an empty file (every extraction
  fails immediately), so an absent file is modelled as the empty content `[]`.
* `std::unordered_map<std::string, std::string>` is modelled as an association
  list `Mapping := List (Str × Str)`; `db[key] = value` is `Mapping.insert`
  (overwrite in place or append), `db.erase(key)` is `Mapping.erase`,
  `db.find(key)` is `Mapping.find?`.  Map equality in claims is extensional
  (`mequiv`), i.e. equality of `find?` on every key, matching equality of
  `unordered_map`s, which is independent of iteration order.
* `stream >> s` for `std::string s` skips whitespace and reads a maximal run of
  non-whitespace characters; it fails at end of file.  Crucially, when the
  *sentry* of the formatted input function fails (whitespace-skip runs into
  EOF), the target string is **not** cleared and keeps its previous content.
  The token sequence a stream yields is `tokens`, and the read loops of the
  sources run over that token list (`loadTokens`, `applyTokens`), the latter
  threading the C++ `value` variable, which survives the failed extraction of
  a truncated final `PUT` record.
-/

/-- A C++ `std::string`, modelled as its character list. -/
abbrev Str := List Char

/-- The in-memory database: `std::unordered_map<std::string, std::string>`,
modelled as an association list whose operations keep keys unique. -/
abbrev Mapping := List (Str × Str)

namespace Mapping

/-- `db.find(key)` / `db.count(key)`: the value bound to `k`, if any. -/
def find? : Mapping → Str → Option Str
  | [], _ => none
  | (k', v') :: rest, k => if k' = k then some v' else find? rest k

/-- `db[key] = value`: overwrite the binding of `k` in place if present,
otherwise add a new binding. -/
def insert : Mapping → Str → Str → Mapping
  | [], k, v => [(k, v)]
  | (k', v') :: rest, k, v =>
    if k' = k then (k, v) :: rest else (k', v') :: insert rest k v

/-- `db.erase(key)`: remove every binding of `k` (at most one is ever present,
since `insert` never duplicates a key). -/
def erase : Mapping → Str → Mapping
  | [], _ => []
  | (k', v') :: rest, k =>
    if k' = k then erase rest k else (k', v') :: erase rest k

end Mapping

/-- Extensional equality of mappings: the same lookup result on every key.
This is the equality of `std::unordered_map`s, independent of entry order. -/
def mequiv (m₁ m₂ : Mapping) : Prop := ∀ k, Mapping.find? m₁ k = Mapping.find? m₂ k

/-- `t` contains no whitespace character. -/
def nonWs (t : Str) : Prop := ∀ c ∈ t, ¬ c.isWhitespace

/-- A well-formed text token as produced by `operator>>`: non-empty and free of
whitespace. -/
def wfTok (t : Str) : Prop := t ≠ [] ∧ nonWs t

instance (t : Str) : Decidable (nonWs t) :=
  decidable_of_iff (∀ c ∈ t, ¬ c.isWhitespace) Iff.rfl

instance (t : Str) : Decidable (wfTok t) :=
  decidable_of_iff (t ≠ [] ∧ nonWs t) Iff.rfl

/-- Worker for `tokens`: `acc` is the (possibly empty) token read so far. -/
def tokAux : List Char → Str → List Str
  | [], acc => if acc = [] then [] else [acc]
  | c :: cs, acc =>
    if c.isWhitespace then
      if acc = [] then tokAux cs [] else acc :: tokAux cs []
    else
      tokAux cs (acc ++ [c])

/-- The token sequence `operator>>` extracts from a character stream: the
maximal whitespace-free non-empty runs, in order. -/
def tokens (s : List Char) : List Str := tokAux s []

/-- The loop of `Storage::load` (src/exDB.cpp:19-21, src/unnamed/part_000:18-20):
`while (dbFile >> key >> value) db[key] = value;` over the token stream.  A
trailing token with no partner makes the second extraction fail, so the loop
exits without touching the map. -/
def loadTokens : List Str → Mapping → Mapping
  | k :: v :: rest, db => loadTokens rest (Mapping.insert db k v)
  | _, db => db

/-- The tokens of `"PUT"`. -/
def PUTop : Str := ['P', 'U', 'T']

/-- The tokens of `"DEL"`. -/
def DELop : Str := ['D', 'E', 'L']

/-- The loop of `WAL::applyLog` (src/exDB.cpp:60-72, src/unnamed/part_000:59-71)
over the token stream.  `value` is the C++ local `std::string value`, which is
only overwritten by a *successful* `walFile >> value`; when the final `PUT`
record has no value token, the extraction's sentry fails before clearing the
string, `value` keeps its previous content, and `db[key] = value` still runs
with that stale content.  The stream is then in a failed state, so the loop
condition `walFile >> operation >> key` ends the loop. -/
def applyTokens : List Str → Str → Mapping → Mapping
  | op :: key :: rest, value, db =>
    if op = PUTop then
      match rest with
      | [] => Mapping.insert db key value
      | v :: rest' => applyTokens rest' v (Mapping.insert db key v)
    else if op = DELop then
      applyTokens rest value (Mapping.erase db key)
    else
      applyTokens rest value db
  | _, _, db => db

/-- One output line of `Storage::save`:
`dbFile << pair.first << " " << pair.second << "\n"`
(src/exDB.cpp:30, src/unnamed/part_000:29). -/
def entryLine (k v : Str) : List Char := k ++ ' ' :: (v ++ ['\n'])

/-- The full output of `Storage::save` when the map iterates its entries in
the order of the given list (the iteration order of an `unordered_map` is
unspecified; theorems about `save` therefore quantify over permutations). -/
def encodeStore : List (Str × Str) → List Char
  | [] => []
  | (k, v) :: ps => entryLine k v ++ encodeStore ps

/-- Modelled from the spec (§3 Data model): an abstract WAL record, either
`Put(key, value)` or `Delete(key)`. -/
inductive Record where
  | put (k v : Str) : Record
  | del (k : Str) : Record
deriving DecidableEq

/-- The line a record occupies in the WAL file, exactly as written by
`WAL::logWriteOperation` (`"PUT " << key << " " << value << "\n"`,
src/exDB.cpp:48) and `WAL::logDeleteOperation` (`"DEL " << key << "\n"`,
src/exDB.cpp:55). -/
def recLine : Record → List Char
  | .put k v => 'P' :: 'U' :: 'T' :: ' ' :: (k ++ ' ' :: (v ++ ['\n']))
  | .del k => 'D' :: 'E' :: 'L' :: ' ' :: (k ++ ['\n'])

/-- A WAL file holding exactly the record sequence `rs`. -/
def encodeWAL : List Record → List Char
  | [] => []
  | r :: rs => recLine r ++ encodeWAL rs

/-- The token sequence of one encoded record. -/
def recTokens : Record → List Str
  | .put k v => [PUTop, k, v]
  | .del k => [DELop, k]

/-- The token sequence of an encoded WAL. -/
def walTokens : List Record → List Str
  | [] => []
  | r :: rs => recTokens r ++ walTokens rs

/-- Modelled from the spec (§4.2): the effect of one record on a mapping —
`PUT key value` sets/overwrites the entry, `DEL key` removes it. -/
def applyRecord (db : Mapping) : Record → Mapping
  | .put k v => Mapping.insert db k v
  | .del k => Mapping.erase db k

/-- Modelled from the spec (§8 Recovery equivalence): start from a mapping and
apply each record in order. -/
def applyRecords : Mapping → List Record → Mapping
  | db, [] => db
  | db, r :: rs => applyRecords (applyRecord db r) rs

/-- The content of the C++ local `value` of `WAL::applyLog` after replaying
the records `rs`, starting from `v`: the value token of the most recent
successfully parsed `PUT` record, or the start value if there is none. -/
def lastPutValue : List Record → Str → Str
  | [], v => v
  | .put _ w :: rs, _ => lastPutValue rs w
  | .del _ :: rs, v => lastPutValue rs v

/-- A well-formed record: its key and value are non-empty whitespace-free
tokens (spec §3: entries are whitespace-free text tokens). -/
def wfRec : Record → Prop
  | .put k v => wfTok k ∧ wfTok v
  | .del k => wfTok k

/-- `key :: value :: ...` token interleaving of a list of entries, the token
sequence of a well-formed Table Store file. -/
def flattenPairs : List (Str × Str) → List Str
  | [] => []
  | (k, v) :: ps => k :: v :: flattenPairs ps

/-- `loadTokens` as a fold: insert the pairs in order. -/
def foldInsert : Mapping → List (Str × Str) → Mapping
  | db, [] => db
  | db, (k, v) :: ps => foldInsert (Mapping.insert db k v) ps

/-- A mapping that is a faithful image of the spec's data model: unique keys
and every key and value a non-empty whitespace-free token. -/
def wfMap (m : Mapping) : Prop :=
  (m.map Prod.fst).Nodup ∧ ∀ p ∈ m, wfTok p.1 ∧ wfTok p.2

/-- The invariant the code actually maintains on the in-memory map: unique
keys, well-formed keys, whitespace-free values.  Values may be *empty* —
replaying a WAL whose first record is a value-less `PUT` binds the key to the
leftover empty `value` variable. -/
def dbInv (m : Mapping) : Prop :=
  (m.map Prod.fst).Nodup ∧ ∀ p ∈ m, wfTok p.1 ∧ nonWs p.2

instance : (r : Record) → Decidable (wfRec r)
  | .put k v => decidable_of_iff (wfTok k ∧ wfTok v) Iff.rfl
  | .del k => decidable_of_iff (wfTok k) Iff.rfl

instance (m : Mapping) : Decidable (wfMap m) :=
  decidable_of_iff ((m.map Prod.fst).Nodup ∧ ∀ p ∈ m, wfTok p.1 ∧ wfTok p.2) Iff.rfl

instance (m : Mapping) : Decidable (dbInv m) :=
  decidable_of_iff ((m.map Prod.fst).Nodup ∧ ∀ p ∈ m, wfTok p.1 ∧ nonWs p.2) Iff.rfl

/-- The state of one façade object together with its two files: the in-memory
`db_` and the contents of the Table Store file and the WAL file. -/
structure DBState where
  db : Mapping
  storeFile : List Char
  walFile : List Char
deriving DecidableEq

namespace KVDB

namespace Storage

/-- `Storage::load` (src/exDB.cpp:15-24). -/
def load (file : List Char) : Mapping := loadTokens (tokens file) []

/-- `Storage::save` (src/exDB.cpp:27-33): truncate and rewrite the file, one
`key value` line per entry, in the map's iteration order. -/
def save (db : Mapping) : List Char := encodeStore db

end Storage

namespace WAL

/-- `WAL::logWriteOperation` (src/exDB.cpp:46-50): append `PUT key value\n`. -/
def logWriteOperation (file : List Char) (k v : Str) : List Char :=
  file ++ recLine (.put k v)

/-- `WAL::logDeleteOperation` (src/exDB.cpp:53-57): append `DEL key\n`. -/
def logDeleteOperation (file : List Char) (k : Str) : List Char :=
  file ++ recLine (.del k)

/-- `WAL::applyLog` (src/exDB.cpp:60-72): replay the WAL file onto `db`. -/
def applyLog (file : List Char) (db : Mapping) : Mapping :=
  applyTokens (tokens file) [] db

/-- `WAL::clearLog` (src/exDB.cpp:75-78): truncate the WAL file. -/
def clearLog : List Char := []

end WAL

namespace KeyValueDB

/-- The `KeyValueDB` constructor (src/exDB.cpp:88-94):
`db_ = storage_.load(); wal_.applyLog(db_);`. -/
def construct (dbFile walFile : List Char) : DBState :=
  { db := WAL.applyLog walFile (Storage.load dbFile)
    storeFile := dbFile
    walFile := walFile }

/-- `KeyValueDB::put` (src/exDB.cpp:97-101). -/
def put (s : DBState) (k v : Str) : DBState :=
  { s with db := Mapping.insert s.db k v
           walFile := WAL.logWriteOperation s.walFile k v }

/-- `KeyValueDB::get` (src/exDB.cpp:104-111).  The method only reads `db_`;
its result is the pair (returned string, state after the call), the state
component recording that the body contains no mutation. -/
def get (s : DBState) (k : Str) : Str × DBState :=
  (match Mapping.find? s.db k with
   | some v => v
   | none => "Key not found".toList, s)

/-- `KeyValueDB::remove` (src/exDB.cpp:114-118):
`db_.erase(key); wal_.logDeleteOperation(key);` — the `DEL` record is appended
unconditionally. -/
def remove (s : DBState) (k : Str) : DBState :=
  { s with db := Mapping.erase s.db k
           walFile := WAL.logDeleteOperation s.walFile k }

/-- `KeyValueDB::mergeLogs` (src/exDB.cpp:121-125):
`storage_.save(db_); wal_.clearLog();`. -/
def mergeLogs (s : DBState) : DBState :=
  { s with storeFile := Storage.save s.db
           walFile := WAL.clearLog }

end KeyValueDB

end KVDB

/-- Façade states reachable through the public interface: construct against
arbitrary file contents, then any sequence of `put` / `remove` / `mergeLogs`
(and `get`, which does not change the state).  `put` and `remove` arguments
are non-empty whitespace-free tokens, the spec's data model (§3: entries are
arbitrary non-whitespace-containing text tokens). -/
inductive Reachable : DBState → Prop where
  | boot (dbFile walFile : List Char) :
      Reachable (KVDB.KeyValueDB.construct dbFile walFile)
  | put {s : DBState} (k v : Str) :
      Reachable s → wfTok k → wfTok v → Reachable (KVDB.KeyValueDB.put s k v)
  | rm {s : DBState} (k : Str) :
      Reachable s → wfTok k → Reachable (KVDB.KeyValueDB.remove s k)
  | merge {s : DBState} :
      Reachable s → Reachable (KVDB.KeyValueDB.mergeLogs s)

namespace ExDBi

namespace Storage

/-- `Storage::load` (src/unnamed/part_000:14-23). -/
def load (file : List Char) : Mapping := loadTokens (tokens file) []

/-- `Storage::save` (src/unnamed/part_000:26-32). -/
def save (db : Mapping) : List Char := encodeStore db

end Storage

namespace WAL

/-- `WAL::logWriteOperation` (src/unnamed/part_000:45-49). -/
def logWriteOperation (file : List Char) (k v : Str) : List Char :=
  file ++ recLine (.put k v)

/-- `WAL::logDeleteOperation` (src/unnamed/part_000:52-56). -/
def logDeleteOperation (file : List Char) (k : Str) : List Char :=
  file ++ recLine (.del k)

/-- `WAL::applyLog` (src/unnamed/part_000:59-71). -/
def applyLog (file : List Char) (db : Mapping) : Mapping :=
  applyTokens (tokens file) [] db

/-- `WAL::clearLog` (src/unnamed/part_000:74-77). -/
def clearLog : List Char := []

end WAL

namespace ExDB

/-- The `ExDB` constructor (src/unnamed/part_000:87-93). -/
def construct (dbFile walFile : List Char) : DBState :=
  { db := WAL.applyLog walFile (Storage.load dbFile)
    storeFile := dbFile
    walFile := walFile }

/-- `ExDB::put` (src/unnamed/part_000:96-100). -/
def put (s : DBState) (k v : Str) : DBState :=
  { s with db := Mapping.insert s.db k v
           walFile := WAL.logWriteOperation s.walFile k v }

/-- `ExDB::get` (src/unnamed/part_000:103-110). -/
def get (s : DBState) (k : Str) : Str × DBState :=
  (match Mapping.find? s.db k with
   | some v => v
   | none => "Key not found".toList, s)

/-- `ExDB::remove` (src/unnamed/part_000:113-117). -/
def remove (s : DBState) (k : Str) : DBState :=
  { s with db := Mapping.erase s.db k
           walFile := WAL.logDeleteOperation s.walFile k }

/-- `ExDB::mergeLogs` (src/unnamed/part_000:120-124). -/
def mergeLogs (s : DBState) : DBState :=
  { s with storeFile := Storage.save s.db
           walFile := WAL.clearLog }

end ExDB

end ExDBi

/-- One public call on a façade object. -/
inductive Op where
  | put (k v : Str) : Op
  | get (k : Str) : Op
  | rem (k : Str) : Op
  | merge : Op

/-- Run one call on a `KeyValueDB` (src/exDB.cpp); the second component is the
return value, present only for `get`. -/
def KVDB.KeyValueDB.stepOp (s : DBState) : Op → DBState × Option Str
  | .put k v => (KVDB.KeyValueDB.put s k v, none)
  | .get k => ((KVDB.KeyValueDB.get s k).2, some (KVDB.KeyValueDB.get s k).1)
  | .rem k => (KVDB.KeyValueDB.remove s k, none)
  | .merge => (KVDB.KeyValueDB.mergeLogs s, none)

/-- Run a call sequence on a `KeyValueDB`, collecting the final state and the
list of `get` results in order. -/
def KVDB.KeyValueDB.runOps : DBState → List Op → DBState × List Str
  | s, [] => (s, [])
  | s, o :: os =>
    let p := KVDB.KeyValueDB.stepOp s o
    let q := KVDB.KeyValueDB.runOps p.1 os
    (q.1, p.2.toList ++ q.2)

/-- Run one call on an `ExDB` (src/unnamed/part_000). -/
def ExDBi.ExDB.stepOp (s : DBState) : Op → DBState × Option Str
  | .put k v => (ExDBi.ExDB.put s k v, none)
  | .get k => ((ExDBi.ExDB.get s k).2, some (ExDBi.ExDB.get s k).1)
  | .rem k => (ExDBi.ExDB.remove s k, none)
  | .merge => (ExDBi.ExDB.mergeLogs s, none)

/-- Run a call sequence on an `ExDB`, collecting the final state and the list
of `get` results in order. -/
def ExDBi.ExDB.runOps : DBState → List Op → DBState × List Str
  | s, [] => (s, [])
  | s, o :: os =>
    let p := ExDBi.ExDB.stepOp s o
    let q := ExDBi.ExDB.runOps p.1 os
    (q.1, p.2.toList ++ q.2)

/-! ## Association-list map lemmas -/

theorem Mapping.find?_insert_self (db : Mapping) (k v : Str) :
    Mapping.find? (Mapping.insert db k v) k = some v := by
  induction db with
  | nil => simp [Mapping.insert, Mapping.find?]
  | cons p rest ih =>
    obtain ⟨k', v'⟩ := p
    by_cases h : k' = k
    · simp [Mapping.insert, Mapping.find?, h]
    · simp [Mapping.insert, Mapping.find?, h, ih]

theorem Mapping.find?_insert_ne (db : Mapping) (k v x : Str) (hx : x ≠ k) :
    Mapping.find? (Mapping.insert db k v) x = Mapping.find? db x := by
  induction db with
  | nil => simp [Mapping.insert, Mapping.find?, Ne.symm hx]
  | cons p rest ih =>
    obtain ⟨k', v'⟩ := p
    by_cases h : k' = k
    · subst h
      simp [Mapping.insert, Mapping.find?, Ne.symm hx]
    · simp [Mapping.insert, Mapping.find?, h, ih]

theorem Mapping.mem_insert (db : Mapping) (k v : Str) (p : Str × Str)
    (hp : p ∈ Mapping.insert db k v) : p ∈ db ∨ p = (k, v) := by
  induction db with
  | nil => simpa [Mapping.insert] using hp
  | cons q rest ih =>
    obtain ⟨k', v'⟩ := q
    by_cases h : k' = k
    · simp [Mapping.insert, h] at hp
      rcases hp with hp | hp
      · exact Or.inr (by simp [hp])
      · exact Or.inl (by simp [hp])
    · simp [Mapping.insert, h] at hp
      rcases hp with hp | hp
      · exact Or.inl (by simp [hp])
      · rcases ih hp with h1 | h1
        · exact Or.inl (by simp [h1])
        · exact Or.inr h1

theorem Mapping.keys_insert_sub (db : Mapping) (k v x : Str)
    (hx : x ∈ (Mapping.insert db k v).map Prod.fst) :
    x ∈ db.map Prod.fst ∨ x = k := by
  simp only [List.mem_map] at hx
  obtain ⟨p, hp, hpx⟩ := hx
  rcases Mapping.mem_insert db k v p hp with h | h
  · exact Or.inl (List.mem_map.mpr ⟨p, h, hpx⟩)
  · subst h
    exact Or.inr hpx.symm

theorem Mapping.nodup_keys_insert (db : Mapping) (k v : Str)
    (hnd : (db.map Prod.fst).Nodup) :
    ((Mapping.insert db k v).map Prod.fst).Nodup := by
  induction db with
  | nil => simp [Mapping.insert]
  | cons p rest ih =>
    obtain ⟨k', v'⟩ := p
    simp at hnd
    by_cases h : k' = k
    · simpa [Mapping.insert, h] using hnd
    · simp [Mapping.insert, h]
      refine ⟨?_, ih hnd.2⟩
      intro x hx
      rcases Mapping.mem_insert rest k v (k', x) hx with h1 | h1
      · exact hnd.1 x h1
      · exact h (congrArg Prod.fst h1)

theorem Mapping.erase_sublist (db : Mapping) (k : Str) :
    (Mapping.erase db k).Sublist db := by
  induction db with
  | nil => simp [Mapping.erase]
  | cons p rest ih =>
    obtain ⟨k', v'⟩ := p
    by_cases h : k' = k
    · simp only [Mapping.erase, if_pos h]
      exact ih.cons _
    · simp only [Mapping.erase, if_neg h]
      exact ih.cons₂ _

theorem Mapping.mem_erase_imp (db : Mapping) (k : Str) (p : Str × Str)
    (hp : p ∈ Mapping.erase db k) : p ∈ db :=
  (Mapping.erase_sublist db k).mem hp

theorem Mapping.nodup_keys_erase (db : Mapping) (k : Str)
    (hnd : (db.map Prod.fst).Nodup) :
    ((Mapping.erase db k).map Prod.fst).Nodup :=
  ((Mapping.erase_sublist db k).map Prod.fst).nodup hnd

theorem Mapping.find?_erase_self (db : Mapping) (k : Str) :
    Mapping.find? (Mapping.erase db k) k = none := by
  induction db with
  | nil => simp [Mapping.erase, Mapping.find?]
  | cons p rest ih =>
    obtain ⟨k', v'⟩ := p
    by_cases h : k' = k
    · simp [Mapping.erase, h, ih]
    · simp [Mapping.erase, Mapping.find?, h, ih]

theorem Mapping.find?_erase_ne (db : Mapping) (k x : Str) (hx : x ≠ k) :
    Mapping.find? (Mapping.erase db k) x = Mapping.find? db x := by
  induction db with
  | nil => simp [Mapping.erase]
  | cons p rest ih =>
    obtain ⟨k', v'⟩ := p
    by_cases h : k' = k
    · subst h
      simp [Mapping.erase, Mapping.find?, Ne.symm hx, ih]
    · simp [Mapping.erase, Mapping.find?, h, ih]

theorem Mapping.find?_eq_none_iff (db : Mapping) (k : Str) :
    Mapping.find? db k = none ↔ k ∉ db.map Prod.fst := by
  induction db with
  | nil => simp [Mapping.find?]
  | cons p rest ih =>
    obtain ⟨k', v'⟩ := p
    by_cases h : k' = k
    · simp [Mapping.find?, h]
    · simp [Mapping.find?, h, ih, Ne.symm h]

theorem Mapping.erase_of_find?_none (db : Mapping) (k : Str)
    (h : Mapping.find? db k = none) : Mapping.erase db k = db := by
  induction db with
  | nil => simp [Mapping.erase]
  | cons p rest ih =>
    obtain ⟨k', v'⟩ := p
    simp only [Mapping.find?] at h
    by_cases hk : k' = k
    · simp [hk] at h
    · simp only [if_neg hk] at h
      simp [Mapping.erase, hk, ih h]

theorem Mapping.insert_of_find?_none (db : Mapping) (k v : Str)
    (h : Mapping.find? db k = none) :
    Mapping.insert db k v = db ++ [(k, v)] := by
  induction db with
  | nil => simp [Mapping.insert]
  | cons p rest ih =>
    obtain ⟨k', v'⟩ := p
    simp only [Mapping.find?] at h
    by_cases hk : k' = k
    · simp [hk] at h
    · simp only [if_neg hk] at h
      simp [Mapping.insert, hk, ih h]

theorem Mapping.find?_eq_some_imp_mem (db : Mapping) (k v : Str)
    (h : Mapping.find? db k = some v) : (k, v) ∈ db := by
  induction db with
  | nil => simp [Mapping.find?] at h
  | cons p rest ih =>
    obtain ⟨k', v'⟩ := p
    by_cases hk : k' = k
    · subst hk
      simp [Mapping.find?] at h
      simp [h]
    · simp only [Mapping.find?, if_neg hk] at h
      exact List.mem_cons_of_mem _ (ih h)

theorem Mapping.find?_eq_some_of_mem_nodup (db : Mapping) (k v : Str)
    (hnd : (db.map Prod.fst).Nodup) (hm : (k, v) ∈ db) :
    Mapping.find? db k = some v := by
  induction db with
  | nil => simp at hm
  | cons p rest ih =>
    obtain ⟨k', v'⟩ := p
    simp at hnd
    rcases List.mem_cons.mp hm with h | h
    · simp only [Prod.mk.injEq] at h
      obtain ⟨rfl, rfl⟩ := h
      simp [Mapping.find?]
    · by_cases hk : k' = k
      · subst hk
        exact absurd h (by simpa using hnd.1 v)
      · simp only [Mapping.find?, if_neg hk]
        exact ih hnd.2 h

theorem Mapping.find?_append_none (a b : Mapping) (k : Str)
    (h : Mapping.find? a k = none) :
    Mapping.find? (a ++ b) k = Mapping.find? b k := by
  induction a with
  | nil => simp
  | cons p rest ih =>
    obtain ⟨k', v'⟩ := p
    simp only [Mapping.find?] at h
    by_cases hk : k' = k
    · simp [hk] at h
    · simp only [List.cons_append, Mapping.find?, if_neg hk] at h ⊢
      exact ih h

/-! ## Tokenizer lemmas -/

theorem nonWs_nil : nonWs [] := by
  intro d hd
  simp at hd

theorem tokAux_append_nonws (t : Str) (ht : nonWs t) (rest : List Char) (acc : Str) :
    tokAux (t ++ rest) acc = tokAux rest (acc ++ t) := by
  induction t generalizing acc with
  | nil => simp
  | cons c t' ih =>
    have hc : c.isWhitespace = false := by
      have := ht c (by simp)
      simpa using this
    have ht' : nonWs t' := fun d hd => ht d (by simp [hd])
    simp only [List.cons_append, tokAux, hc, Bool.false_eq_true, if_false, List.append_eq]
    rw [ih ht' (acc ++ [c])]
    simp

theorem tokens_append_tok (t : Str) (ht : wfTok t) (c : Char) (hc : c.isWhitespace = true)
    (rest : List Char) :
    tokens (t ++ c :: rest) = t :: tokens rest := by
  unfold tokens
  rw [tokAux_append_nonws t ht.2 (c :: rest) []]
  simp [tokAux, hc, ht.1]

theorem tokens_single (t : Str) (ht : wfTok t) : tokens t = [t] := by
  have h := tokAux_append_nonws t ht.2 [] []
  simp only [List.append_nil, List.nil_append] at h
  unfold tokens
  rw [h]
  simp [tokAux, ht.1]

theorem tokens_nil : tokens [] = [] := rfl

theorem tokAux_wf (s : List Char) (acc : Str) (hacc : nonWs acc) :
    ∀ t ∈ tokAux s acc, wfTok t := by
  induction s generalizing acc with
  | nil =>
    intro t ht
    by_cases h : acc = []
    · simp [tokAux, h] at ht
    · simp [tokAux, h] at ht
      subst ht
      exact ⟨h, hacc⟩
  | cons c cs ih =>
    intro t ht
    by_cases hws : c.isWhitespace
    · by_cases h : acc = []
      · simp [tokAux, hws, h] at ht
        exact ih [] nonWs_nil t ht
      · simp [tokAux, hws, h] at ht
        rcases ht with rfl | ht
        · exact ⟨h, hacc⟩
        · exact ih [] nonWs_nil t ht
    · simp [tokAux, hws] at ht
      refine ih (acc ++ [c]) ?_ t ht
      intro d hd
      rcases List.mem_append.mp hd with h1 | h1
      · exact hacc d h1
      · simp at h1
        subst h1
        simpa using hws

theorem tokens_wf (s : List Char) : ∀ t ∈ tokens s, wfTok t :=
  tokAux_wf s [] nonWs_nil

/-! ## Step equations of the applyLog loop -/

theorem applyTokens_nil (v0 : Str) (db : Mapping) : applyTokens [] v0 db = db := rfl

theorem applyTokens_single (t v0 : Str) (db : Mapping) : applyTokens [t] v0 db = db := rfl

theorem applyTokens_put_cons (k v : Str) (l : List Str) (v0 : Str) (db : Mapping) :
    applyTokens (PUTop :: k :: v :: l) v0 db = applyTokens l v (Mapping.insert db k v) := rfl

theorem applyTokens_put_end (k v0 : Str) (db : Mapping) :
    applyTokens [PUTop, k] v0 db = Mapping.insert db k v0 := rfl

theorem applyTokens_del (k : Str) (l : List Str) (v0 : Str) (db : Mapping) :
    applyTokens (DELop :: k :: l) v0 db = applyTokens l v0 (Mapping.erase db k) := by
  rw [applyTokens.eq_def]
  simp
  exact fun h => absurd h (by decide)

theorem applyTokens_other (op k : Str) (hput : op ≠ PUTop) (hdel : op ≠ DELop)
    (l : List Str) (v0 : Str) (db : Mapping) :
    applyTokens (op :: k :: l) v0 db = applyTokens l v0 db := by
  rw [applyTokens.eq_def]
  simp [hput, hdel]

/-! ## Tokenization of the encoded files -/

theorem tokens_entryLine (k v : Str) (hk : wfTok k) (hv : wfTok v) (rest : List Char) :
    tokens (entryLine k v ++ rest) = k :: v :: tokens rest := by
  unfold entryLine
  rw [show (k ++ ' ' :: (v ++ ['\n'])) ++ rest = k ++ ' ' :: (v ++ '\n' :: rest) by simp]
  rw [tokens_append_tok k hk ' ' (by decide) (v ++ '\n' :: rest)]
  rw [tokens_append_tok v hv '\n' (by decide) rest]

theorem tokens_encodeStore (ps : List (Str × Str))
    (hps : ∀ p ∈ ps, wfTok p.1 ∧ wfTok p.2) (rest : List Char) :
    tokens (encodeStore ps ++ rest) = flattenPairs ps ++ tokens rest := by
  induction ps with
  | nil => simp [encodeStore, flattenPairs]
  | cons p ps ih =>
    obtain ⟨k, v⟩ := p
    have hp := hps (k, v) (by simp)
    simp only [encodeStore, flattenPairs, List.append_assoc]
    rw [tokens_entryLine k v hp.1 hp.2]
    simp [ih (fun q hq => hps q (by simp [hq]))]

theorem tokens_recLine (r : Record) (hr : wfRec r) (rest : List Char) :
    tokens (recLine r ++ rest) = recTokens r ++ tokens rest := by
  cases r with
  | put k v =>
    obtain ⟨hk, hv⟩ := hr
    rw [show recLine (.put k v) ++ rest = PUTop ++ ' ' :: (k ++ ' ' :: (v ++ '\n' :: rest)) by
      simp [recLine, PUTop]]
    rw [tokens_append_tok PUTop (by decide) ' ' (by decide)]
    rw [tokens_append_tok k hk ' ' (by decide)]
    rw [tokens_append_tok v hv '\n' (by decide)]
    simp [recTokens]
  | del k =>
    rw [show recLine (.del k) ++ rest = DELop ++ ' ' :: (k ++ '\n' :: rest) by
      simp [recLine, DELop]]
    rw [tokens_append_tok DELop (by decide) ' ' (by decide)]
    rw [tokens_append_tok k hr '\n' (by decide)]
    simp [recTokens]

theorem tokens_encodeWAL (R : List Record) (hR : ∀ r ∈ R, wfRec r) (rest : List Char) :
    tokens (encodeWAL R ++ rest) = walTokens R ++ tokens rest := by
  induction R with
  | nil => simp [encodeWAL, walTokens]
  | cons r rs ih =>
    simp only [encodeWAL, walTokens, List.append_assoc]
    rw [tokens_recLine r (hR r (by simp))]
    simp [ih (fun q hq => hR q (by simp [hq]))]

/-! ## The replay loop over encoded records -/

theorem applyTokens_walTokens (R : List Record) (ts : List Str) (v0 : Str) (db : Mapping) :
    applyTokens (walTokens R ++ ts) v0 db
      = applyTokens ts (lastPutValue R v0) (applyRecords db R) := by
  induction R generalizing v0 db with
  | nil => simp [walTokens, lastPutValue, applyRecords]
  | cons r rs ih =>
    cases r with
    | put k v =>
      simp only [walTokens, recTokens, List.cons_append, List.append_assoc]
      rw [applyTokens_put_cons]
      simp only [List.nil_append]
      rw [ih]
      simp [lastPutValue, applyRecords, applyRecord]
    | del k =>
      simp only [walTokens, recTokens, List.cons_append, List.append_assoc]
      rw [applyTokens_del]
      simp only [List.nil_append]
      rw [ih]
      simp [lastPutValue, applyRecords, applyRecord]

/-! ## The load loop over encoded entries -/

theorem loadTokens_flatten_append (ps : List (Str × Str)) (ts : List Str) (db : Mapping) :
    loadTokens (flattenPairs ps ++ ts) db = loadTokens ts (foldInsert db ps) := by
  induction ps generalizing db with
  | nil => simp [flattenPairs, foldInsert]
  | cons p ps ih =>
    obtain ⟨k, v⟩ := p
    simp only [flattenPairs, List.cons_append, loadTokens, foldInsert]
    exact ih (Mapping.insert db k v)

theorem foldInsert_append (db : Mapping) (ps qs : List (Str × Str)) :
    foldInsert db (ps ++ qs) = foldInsert (foldInsert db ps) qs := by
  induction ps generalizing db with
  | nil => simp [foldInsert]
  | cons p ps ih =>
    obtain ⟨k, v⟩ := p
    simp only [List.cons_append, foldInsert]
    exact ih (Mapping.insert db k v)

theorem foldInsert_eq_append (ps : List (Str × Str)) : ∀ db : Mapping,
    (∀ p ∈ ps, Mapping.find? db p.1 = none) → (ps.map Prod.fst).Nodup →
    foldInsert db ps = db ++ ps := by
  induction ps with
  | nil => simp [foldInsert]
  | cons p ps ih =>
    intro db hdis hnd
    obtain ⟨k, v⟩ := p
    simp only [List.map_cons, List.nodup_cons] at hnd
    simp only [foldInsert]
    rw [Mapping.insert_of_find?_none db k v (hdis (k, v) (by simp))]
    rw [ih (db ++ [(k, v)]) ?_ hnd.2]
    · simp
    · intro q hq
      rw [Mapping.find?_append_none db [(k, v)] q.1 (hdis q (by simp [hq]))]
      have hqk : q.1 ≠ k := by
        intro h
        exact hnd.1 (List.mem_map.mpr ⟨q, hq, h⟩)
      simp [Mapping.find?, Ne.symm hqk]

theorem loadTokens_flatten (ps : List (Str × Str)) (db : Mapping) :
    loadTokens (flattenPairs ps) db = foldInsert db ps := by
  have h := loadTokens_flatten_append ps [] db
  simpa [loadTokens] using h

theorem foldInsert_nil_eq (M : Mapping) (hnd : (M.map Prod.fst).Nodup) :
    foldInsert [] M = M := by
  have h := foldInsert_eq_append M [] (fun p _ => rfl) hnd
  simpa using h

/-- Round trip of the Table Store at the level of either implementation's
`Storage`: loading any saved iteration order of a well-formed map returns the
map itself (both namespaces' `load`/`save` share these definitions). -/
theorem load_encodeStore (M : Mapping) (hM : wfMap M) :
    loadTokens (tokens (encodeStore M)) [] = M := by
  have h1 : tokens (encodeStore M) = flattenPairs M := by
    have h := tokens_encodeStore M (fun p hp => hM.2 p hp) []
    simpa [tokens_nil] using h
  rw [h1, loadTokens_flatten]
  exact foldInsert_nil_eq M hM.1

/-! ## Invariants of the in-memory map -/

theorem insert_dbInv (db : Mapping) (k v : Str) (hdb : dbInv db) (hk : wfTok k)
    (hv : nonWs v) : dbInv (Mapping.insert db k v) := by
  refine ⟨Mapping.nodup_keys_insert db k v hdb.1, ?_⟩
  intro p hp
  rcases Mapping.mem_insert db k v p hp with h | h
  · exact hdb.2 p h
  · subst h
    exact ⟨hk, hv⟩

theorem erase_dbInv (db : Mapping) (k : Str) (hdb : dbInv db) :
    dbInv (Mapping.erase db k) :=
  ⟨Mapping.nodup_keys_erase db k hdb.1,
   fun p hp => hdb.2 p (Mapping.mem_erase_imp db k p hp)⟩

theorem dbInv_nil : dbInv [] := by
  constructor
  · simp
  · intro p hp
    simp at hp

theorem loadTokens_dbInv : ∀ (ts : List Str) (db : Mapping),
    (∀ t ∈ ts, wfTok t) → dbInv db → dbInv (loadTokens ts db)
  | [], _, _, hdb => hdb
  | [_], _, _, hdb => hdb
  | k :: v :: rest, db, hts, hdb => by
    simp only [loadTokens]
    refine loadTokens_dbInv rest (Mapping.insert db k v)
      (fun t ht => hts t (by simp [ht])) ?_
    exact insert_dbInv db k v hdb (hts k (by simp)) (hts v (by simp)).2

theorem applyTokens_dbInv : ∀ (ts : List Str) (v0 : Str) (db : Mapping),
    (∀ t ∈ ts, wfTok t) → nonWs v0 → dbInv db → dbInv (applyTokens ts v0 db)
  | [], _, _, _, _, hdb => hdb
  | [_], _, _, _, _, hdb => hdb
  | op :: key :: rest, v0, db, hts, hv0, hdb => by
    by_cases hput : op = PUTop
    · subst hput
      cases rest with
      | nil =>
        rw [applyTokens_put_end]
        exact insert_dbInv db key v0 hdb (hts key (by simp)) hv0
      | cons v rest' =>
        rw [applyTokens_put_cons]
        exact applyTokens_dbInv rest' v (Mapping.insert db key v)
          (fun t ht => hts t (by simp [ht])) (hts v (by simp)).2
          (insert_dbInv db key v hdb (hts key (by simp)) (hts v (by simp)).2)
    · by_cases hdel : op = DELop
      · subst hdel
        rw [applyTokens_del]
        exact applyTokens_dbInv rest v0 (Mapping.erase db key)
          (fun t ht => hts t (by simp [ht])) hv0 (erase_dbInv db key hdb)
      · rw [applyTokens_other op key hput hdel]
        exact applyTokens_dbInv rest v0 db
          (fun t ht => hts t (by simp [ht])) hv0 hdb

theorem reachable_dbInv {s : DBState} (hs : Reachable s) : dbInv s.db := by
  induction hs with
  | boot dbF walF =>
    have h1 : dbInv (KVDB.Storage.load dbF) :=
      loadTokens_dbInv (tokens dbF) [] (tokens_wf dbF) dbInv_nil
    exact applyTokens_dbInv (tokens walF) [] _ (tokens_wf walF) nonWs_nil h1
  | put k v _ hk hv ih => exact insert_dbInv _ k v ih hk hv.2
  | rm k _ _ ih => exact erase_dbInv _ k ih
  | merge _ ih => exact ih

/-! ## Extensional map equality -/

theorem mequiv_of_perm (m₁ m₂ : Mapping) (h : m₁.Perm m₂)
    (hnd : (m₂.map Prod.fst).Nodup) : mequiv m₁ m₂ := by
  intro k
  have hnd1 : (m₁.map Prod.fst).Nodup := ((h.map Prod.fst).nodup_iff).mpr hnd
  cases h2 : Mapping.find? m₂ k with
  | none =>
    rw [Mapping.find?_eq_none_iff] at h2 ⊢
    intro hk
    exact h2 ((h.map Prod.fst).mem_iff.mp hk)
  | some v =>
    exact Mapping.find?_eq_some_of_mem_nodup m₁ k v hnd1
      (h.symm.subset (Mapping.find?_eq_some_imp_mem m₂ k v h2))

theorem wfMap_of_perm (m₁ m₂ : Mapping) (h : m₁.Perm m₂) (hm : wfMap m₂) : wfMap m₁ :=
  ⟨((h.map Prod.fst).nodup_iff).mpr hm.1, fun p hp => hm.2 p (h.subset hp)⟩

/-! ## Miscellaneous helpers for the claims -/

theorem encodeWAL_append (R S : List Record) :
    encodeWAL (R ++ S) = encodeWAL R ++ encodeWAL S := by
  induction R with
  | nil => simp [encodeWAL]
  | cons r rs ih => simp [encodeWAL, ih]

/-- Replaying a WAL file that encodes exactly the record sequence `R` is the
fold of the per-record effects, in order. -/
theorem applyLog_encode (R : List Record) (db : Mapping) (hR : ∀ r ∈ R, wfRec r) :
    applyTokens (tokens (encodeWAL R)) [] db = applyRecords db R := by
  have ht : tokens (encodeWAL R) = walTokens R := by
    have h := tokens_encodeWAL R hR []
    simpa [tokens_nil] using h
  rw [ht]
  have h2 := applyTokens_walTokens R [] [] db
  simpa [applyTokens_nil] using h2

/-- Replaying a WAL that encodes `R` and then ends in a truncated `PUT <k>`
(no value token before EOF) still executes `db[key] = value` for `k`, with
`value` holding `lastPutValue R []`. -/
theorem applyLog_truncated_put (R : List Record) (k : Str) (db : Mapping)
    (hR : ∀ r ∈ R, wfRec r) (hk : wfTok k) :
    KVDB.WAL.applyLog (encodeWAL R ++ 'P' :: 'U' :: 'T' :: ' ' :: k) db
      = Mapping.insert (applyRecords db R) k (lastPutValue R []) := by
  show applyTokens (tokens (encodeWAL R ++ 'P' :: 'U' :: 'T' :: ' ' :: k)) [] db = _
  rw [tokens_encodeWAL R hR]
  rw [show ('P' :: 'U' :: 'T' :: ' ' :: k : List Char) = PUTop ++ ' ' :: k by simp [PUTop]]
  rw [tokens_append_tok PUTop (by decide) ' ' (by decide)]
  rw [tokens_single k hk]
  rw [applyTokens_walTokens R [PUTop, k] [] db]
  rw [applyTokens_put_end]

theorem exdb_construct_eq (dbF walF : List Char) :
    ExDBi.ExDB.construct dbF walF = KVDB.KeyValueDB.construct dbF walF := rfl

theorem exdb_stepOp_eq (s : DBState) (o : Op) :
    ExDBi.ExDB.stepOp s o = KVDB.KeyValueDB.stepOp s o := by
  cases o <;> rfl

theorem exdb_runOps_eq (ops : List Op) : ∀ s : DBState,
    ExDBi.ExDB.runOps s ops = KVDB.KeyValueDB.runOps s ops := by
  induction ops with
  | nil => intro s; rfl
  | cons o os ih =>
    intro s
    simp only [ExDBi.ExDB.runOps, KVDB.KeyValueDB.runOps, exdb_stepOp_eq, ih]

/-! ## The claims -/

/-- Claim C1 (recovery equivalence): constructing the façade against a Table
Store file containing the snapshot `S` and a WAL file containing the record
sequence `R` yields an in-memory Mapping equal to the one obtained by starting
from `S` and applying each record of `R` in file order. -/
theorem C1_recovery_equivalence (S : Mapping) (R : List Record)
    (hS : wfMap S) (hR : ∀ r ∈ R, wfRec r) :
    (KVDB.KeyValueDB.construct (KVDB.Storage.save S) (encodeWAL R)).db
      = applyRecords S R := by
  show KVDB.WAL.applyLog (encodeWAL R) (KVDB.Storage.load (KVDB.Storage.save S))
      = applyRecords S R
  have hload : KVDB.Storage.load (KVDB.Storage.save S) = S := load_encodeStore S hS
  rw [hload]
  exact applyLog_encode R S hR

/-- Witness for C1 at a concrete snapshot and record sequence. -/
theorem C1_recovery_equivalence_witness :
    wfMap [(['a'], ['1'])] ∧
    (∀ r ∈ [Record.put ['b'] ['2'], Record.del ['a']], wfRec r) ∧
    (KVDB.KeyValueDB.construct (KVDB.Storage.save [(['a'], ['1'])])
        (encodeWAL [Record.put ['b'] ['2'], Record.del ['a']])).db
      = applyRecords [(['a'], ['1'])] [Record.put ['b'] ['2'], Record.del ['a']] :=
  ⟨by decide, by decide, C1_recovery_equivalence _ _ (by decide) (by decide)⟩

/-- Counterexample to claim C2 as stated: the façade constructed against an
empty Table Store and the WAL file `"PUT k"` (a truncated `PUT` with no value
token — exactly what a crash mid-append leaves behind) is a reachable state
whose Mapping binds `k` to the empty leftover `value` string; after
`mergeLogs`, `Storage::save` writes the line `k \n`, which `Storage::load`
parses as a lone trailing key and drops, so loading the Table Store does not
reproduce the in-memory Mapping at the time of the merge. -/
theorem C2_merge_convergence_cex :
    Reachable (KVDB.KeyValueDB.construct [] ("PUT k".toList)) ∧
    ¬ mequiv
      (KVDB.Storage.load
        (KVDB.KeyValueDB.mergeLogs
          (KVDB.KeyValueDB.construct [] ("PUT k".toList))).storeFile)
      (KVDB.KeyValueDB.mergeLogs
        (KVDB.KeyValueDB.construct [] ("PUT k".toList))).db :=
  ⟨Reachable.boot [] ("PUT k".toList), fun h => absurd (h ['k']) (by decide)⟩

/-- Claim C2, amended (merge convergence): for every reachable façade state
*whose Mapping holds no empty value* (every value is a non-empty token; this
only fails when recovery replayed a WAL ending in a value-less `PUT` with no
earlier complete `PUT`), after `mergeLogs()` the Table Store file loads back
to the Mapping at the time of the merge, the WAL is empty, and a freshly
constructed façade on the two files reproduces that Mapping. -/
theorem C2_merge_convergence (s : DBState) (hs : Reachable s)
    (hv : ∀ p ∈ s.db, p.2 ≠ []) :
    KVDB.Storage.load (KVDB.KeyValueDB.mergeLogs s).storeFile = s.db ∧
    (KVDB.KeyValueDB.mergeLogs s).walFile = [] ∧
    (KVDB.KeyValueDB.construct (KVDB.KeyValueDB.mergeLogs s).storeFile
        (KVDB.KeyValueDB.mergeLogs s).walFile).db = s.db := by
  have hinv := reachable_dbInv hs
  have hwf : wfMap s.db :=
    ⟨hinv.1, fun p hp => ⟨(hinv.2 p hp).1, ⟨hv p hp, (hinv.2 p hp).2⟩⟩⟩
  have hload : KVDB.Storage.load (KVDB.KeyValueDB.mergeLogs s).storeFile = s.db :=
    load_encodeStore s.db hwf
  exact ⟨hload, rfl, hload⟩

/-- Witness for the amended C2 at a concrete reachable state. -/
theorem C2_merge_convergence_witness :
    Reachable (KVDB.KeyValueDB.construct ("a 1".toList) []) ∧
    (∀ p ∈ (KVDB.KeyValueDB.construct ("a 1".toList) []).db, p.2 ≠ []) ∧
    (KVDB.Storage.load
        (KVDB.KeyValueDB.mergeLogs
          (KVDB.KeyValueDB.construct ("a 1".toList) [])).storeFile
      = (KVDB.KeyValueDB.construct ("a 1".toList) []).db ∧
     (KVDB.KeyValueDB.mergeLogs
        (KVDB.KeyValueDB.construct ("a 1".toList) [])).walFile = [] ∧
     (KVDB.KeyValueDB.construct
        (KVDB.KeyValueDB.mergeLogs
          (KVDB.KeyValueDB.construct ("a 1".toList) [])).storeFile
        (KVDB.KeyValueDB.mergeLogs
          (KVDB.KeyValueDB.construct ("a 1".toList) [])).walFile).db
      = (KVDB.KeyValueDB.construct ("a 1".toList) []).db) :=
  ⟨Reachable.boot ("a 1".toList) [], by decide,
   C2_merge_convergence _ (Reachable.boot ("a 1".toList) []) (by decide)⟩

/-- Claim C3 (round-trip): for every Mapping `M` of non-empty whitespace-free
keys and values, saving `M` — whatever entry order the unordered map's
iteration produced — and loading the file back returns a Mapping equal
(extensionally) to `M`. -/
theorem C3_save_load_roundtrip (M order : Mapping) (hM : wfMap M)
    (hperm : order.Perm M) :
    mequiv (KVDB.Storage.load (KVDB.Storage.save order)) M := by
  have hwfo : wfMap order := wfMap_of_perm order M hperm hM
  have h : KVDB.Storage.load (KVDB.Storage.save order) = order :=
    load_encodeStore order hwfo
  rw [h]
  exact mequiv_of_perm order M hperm hM.1

/-- Witness for C3 with a genuinely permuted write order. -/
theorem C3_save_load_roundtrip_witness :
    wfMap [(['a'], ['1']), (['b'], ['2'])] ∧
    ([(['b'], ['2']), (['a'], ['1'])] : Mapping).Perm [(['a'], ['1']), (['b'], ['2'])] ∧
    mequiv (KVDB.Storage.load (KVDB.Storage.save [(['b'], ['2']), (['a'], ['1'])]))
      [(['a'], ['1']), (['b'], ['2'])] :=
  ⟨by decide, List.Perm.swap _ _ _,
   C3_save_load_roundtrip _ _ (by decide) (List.Perm.swap _ _ _)⟩

/-- Claim C4 (WAL replay semantics): `applyLog` replays an encoded record
sequence strictly in file order; a `PUT` sets or overwrites the entry for its
key; a `DEL` removes the key, and is a no-op on a map without the key; and a
`DEL` consumes exactly the operation token and the key token — the replay
continues at the very next token, so a trailing value token is never
consumed by a `DEL`. -/
theorem C4_applyLog_semantics :
    (∀ (R : List Record) (db : Mapping), (∀ r ∈ R, wfRec r) →
        KVDB.WAL.applyLog (encodeWAL R) db = applyRecords db R) ∧
    (∀ (db : Mapping) (k v : Str),
        Mapping.find? (Mapping.insert db k v) k = some v) ∧
    (∀ (db : Mapping) (k : Str),
        Mapping.find? (Mapping.erase db k) k = none) ∧
    (∀ (db : Mapping) (k : Str), Mapping.find? db k = none →
        Mapping.erase db k = db) ∧
    (∀ (k : Str) (rest : List Str) (v0 : Str) (db : Mapping),
        applyTokens (DELop :: k :: rest) v0 db
          = applyTokens rest v0 (Mapping.erase db k)) :=
  ⟨fun R db hR => applyLog_encode R db hR,
   Mapping.find?_insert_self,
   Mapping.find?_erase_self,
   Mapping.erase_of_find?_none,
   fun k rest v0 db => applyTokens_del k rest v0 db⟩

/-- Witness for C4, discharging the hypotheses of its conditional conjuncts
at concrete inputs. -/
theorem C4_applyLog_semantics_witness :
    KVDB.WAL.applyLog (encodeWAL [Record.put ['a'] ['1'], Record.del ['a']]) []
      = applyRecords [] [Record.put ['a'] ['1'], Record.del ['a']] ∧
    Mapping.erase [(['b'], ['2'])] ['a'] = [(['b'], ['2'])] :=
  ⟨C4_applyLog_semantics.1 _ _ (by decide),
   C4_applyLog_semantics.2.2.2.1 [(['b'], ['2'])] ['a'] (by decide)⟩

/-- Counterexample to claim C5 as stated: in the WAL file `"PUT a 1\nPUT b"`
the final `PUT b` has no value token, yet replaying onto a map where `b` is
bound to `"0"` does *not* leave `b`'s entry as it was: the failed extraction
leaves the C++ `value` variable holding `"1"` and `db["b"] = value` runs. -/
theorem C5_truncated_put_cex :
    Mapping.find? (KVDB.WAL.applyLog ("PUT a 1\nPUT b".toList) [(['b'], ['0'])]) ['b']
      ≠ Mapping.find? [(['b'], ['0'])] ['b'] := by decide

/-- Claim C5, amended: a final `PUT` record whose value token is missing at
end-of-file is *not* dropped — `applyLog` binds its key to the leftover
content of the `value` variable (the value token of the most recent complete
`PUT`, or the empty string when none precedes), instead of leaving the key's
prior entry untouched. -/
theorem C5_truncated_put_amended (R : List Record) (k : Str) (db : Mapping)
    (hR : ∀ r ∈ R, wfRec r) (hk : wfTok k) :
    Mapping.find?
        (KVDB.WAL.applyLog (encodeWAL R ++ 'P' :: 'U' :: 'T' :: ' ' :: k) db) k
      = some (lastPutValue R []) := by
  rw [applyLog_truncated_put R k db hR hk]
  exact Mapping.find?_insert_self ..

/-- Witness for the amended C5 at a concrete truncated WAL. -/
theorem C5_truncated_put_amended_witness :
    Mapping.find?
        (KVDB.WAL.applyLog
          (encodeWAL [Record.put ['a'] ['1']] ++ 'P' :: 'U' :: 'T' :: ' ' :: ['b'])
          [(['b'], ['0'])]) ['b']
      = some (lastPutValue [Record.put ['a'] ['1']] []) :=
  C5_truncated_put_amended _ _ _ (by decide) (by decide)

/-- Claim C6 (get contract): `get` returns the stored value when the key is
present, the sentinel string `"Key not found"` when it is absent, and leaves
the state — Mapping, WAL file and Table Store file — unchanged. -/
theorem C6_get_contract (s : DBState) (k v : Str) :
    (Mapping.find? s.db k = some v → (KVDB.KeyValueDB.get s k).1 = v) ∧
    (Mapping.find? s.db k = none →
        (KVDB.KeyValueDB.get s k).1 = "Key not found".toList) ∧
    (KVDB.KeyValueDB.get s k).2 = s := by
  refine ⟨?_, ?_, rfl⟩
  · intro h
    simp [KVDB.KeyValueDB.get, h]
  · intro h
    simp [KVDB.KeyValueDB.get, h]

/-- Witness for C6 at a concrete state, one present and one absent key. -/
theorem C6_get_contract_witness :
    (KVDB.KeyValueDB.get ⟨[(['a'], ['1'])], [], []⟩ ['a']).1 = ['1'] ∧
    (KVDB.KeyValueDB.get ⟨[(['a'], ['1'])], [], []⟩ ['b']).1 = "Key not found".toList ∧
    (KVDB.KeyValueDB.get ⟨[(['a'], ['1'])], [], []⟩ ['a']).2 = ⟨[(['a'], ['1'])], [], []⟩ :=
  ⟨(C6_get_contract ⟨[(['a'], ['1'])], [], []⟩ ['a'] ['1']).1 (by decide),
   (C6_get_contract ⟨[(['a'], ['1'])], [], []⟩ ['b'] ['1']).2.1 (by decide),
   (C6_get_contract ⟨[(['a'], ['1'])], [], []⟩ ['a'] ['1']).2.2⟩

/-- Claim C7 (unconditional delete logging): `remove` erases the key from the
Mapping (a no-op on the Mapping when the key is absent), leaves the Table
Store file alone, and always appends exactly one `DEL` record for the key to
the WAL, whether or not the key existed. -/
theorem C7_remove_contract (s : DBState) (k : Str) :
    (KVDB.KeyValueDB.remove s k).db = Mapping.erase s.db k ∧
    (Mapping.find? s.db k = none → (KVDB.KeyValueDB.remove s k).db = s.db) ∧
    (KVDB.KeyValueDB.remove s k).storeFile = s.storeFile ∧
    (∀ R : List Record, s.walFile = encodeWAL R →
        (KVDB.KeyValueDB.remove s k).walFile = encodeWAL (R ++ [Record.del k])) := by
  refine ⟨rfl, ?_, rfl, ?_⟩
  · intro h
    show Mapping.erase s.db k = s.db
    exact Mapping.erase_of_find?_none s.db k h
  · intro R hR
    show s.walFile ++ recLine (.del k) = encodeWAL (R ++ [Record.del k])
    rw [hR, encodeWAL_append]
    simp [encodeWAL]

/-- Witness for C7: `remove` of a missing key on an empty Mapping leaves the
Mapping empty yet grows the WAL by exactly one `DEL` record. -/
theorem C7_remove_contract_witness :
    (KVDB.KeyValueDB.remove ⟨[], [], []⟩ "missing-key".toList).db = [] ∧
    (KVDB.KeyValueDB.remove ⟨[], [], []⟩ "missing-key".toList).walFile
      = encodeWAL [Record.del "missing-key".toList] :=
  ⟨(C7_remove_contract ⟨[], [], []⟩ "missing-key".toList).2.1 rfl,
   (C7_remove_contract ⟨[], [], []⟩ "missing-key".toList).2.2.2 [] rfl⟩

/-- Claim C8 (Table Store load edge cases): an absent or empty snapshot file
loads to the empty Mapping; a value-less trailing key at end-of-file is
ignored (both at the token level and for a well-formed encoded file); and
when the file repeats a key, the occurrence read last wins. -/
theorem C8_load_edge_cases :
    KVDB.Storage.load [] = [] ∧
    (∀ (ps : List (Str × Str)) (k : Str) (db : Mapping),
        loadTokens (flattenPairs ps ++ [k]) db = loadTokens (flattenPairs ps) db) ∧
    (∀ (ps : List (Str × Str)) (k : Str),
        (∀ p ∈ ps, wfTok p.1 ∧ wfTok p.2) → wfTok k →
        KVDB.Storage.load (encodeStore ps ++ k) = KVDB.Storage.load (encodeStore ps)) ∧
    (∀ (ps : List (Str × Str)) (k v : Str),
        (∀ p ∈ ps, wfTok p.1 ∧ wfTok p.2) → wfTok k → wfTok v →
        Mapping.find? (KVDB.Storage.load (encodeStore (ps ++ [(k, v)]))) k = some v) := by
  refine ⟨rfl, ?_, ?_, ?_⟩
  · intro ps k db
    rw [loadTokens_flatten_append ps [k] db, loadTokens_flatten]
    rfl
  · intro ps k hps hk
    show loadTokens (tokens (encodeStore ps ++ k)) []
        = loadTokens (tokens (encodeStore ps)) []
    rw [tokens_encodeStore ps hps k, tokens_single k hk]
    have h2 : tokens (encodeStore ps) = flattenPairs ps := by
      have h := tokens_encodeStore ps hps []
      simpa [tokens_nil] using h
    rw [h2, loadTokens_flatten_append ps [k] [], loadTokens_flatten]
    rfl
  · intro ps k v hps hk hv
    have hps' : ∀ p ∈ ps ++ [(k, v)], wfTok p.1 ∧ wfTok p.2 := by
      intro p hp
      rcases List.mem_append.mp hp with h | h
      · exact hps p h
      · simp at h
        subst h
        exact ⟨hk, hv⟩
    show Mapping.find? (loadTokens (tokens (encodeStore (ps ++ [(k, v)]))) []) k = some v
    have h1 : tokens (encodeStore (ps ++ [(k, v)])) = flattenPairs (ps ++ [(k, v)]) := by
      have h := tokens_encodeStore (ps ++ [(k, v)]) hps' []
      simpa [tokens_nil] using h
    rw [h1, loadTokens_flatten, foldInsert_append]
    show Mapping.find? (Mapping.insert (foldInsert [] ps) k v) k = some v
    exact Mapping.find?_insert_self ..

/-- Witness for C8: trailing lone key ignored, and a duplicated key resolved
to the later occurrence. -/
theorem C8_load_edge_cases_witness :
    loadTokens (flattenPairs [(['a'], ['1'])] ++ [['x']]) []
      = loadTokens (flattenPairs [(['a'], ['1'])]) [] ∧
    KVDB.Storage.load (encodeStore [(['a'], ['1'])] ++ ['x'])
      = KVDB.Storage.load (encodeStore [(['a'], ['1'])]) ∧
    Mapping.find?
        (KVDB.Storage.load (encodeStore ([(['a'], ['1'])] ++ [(['a'], ['2'])]))) ['a']
      = some ['2'] :=
  ⟨C8_load_edge_cases.2.1 [(['a'], ['1'])] ['x'] [],
   C8_load_edge_cases.2.2.1 [(['a'], ['1'])] ['x'] (by decide) (by decide),
   C8_load_edge_cases.2.2.2 [(['a'], ['1'])] ['a'] ['2'] (by decide) (by decide) (by decide)⟩

/-- Claim C9 (truncated trailing PUT executes with the leftover value): when
the WAL encodes the records `R` and then ends in `PUT <k>` with no value
token, `applyLog` still executes the assignment for `k`, binding it to the
leftover content of the `value` variable — the value token of the most recent
successfully parsed `PUT` of `R`, or the empty string when `R` has no `PUT` —
rather than leaving `k`'s prior entry untouched. -/
theorem C9_truncated_put_stale (R : List Record) (k : Str) (db : Mapping)
    (hR : ∀ r ∈ R, wfRec r) (hk : wfTok k) :
    KVDB.WAL.applyLog (encodeWAL R ++ 'P' :: 'U' :: 'T' :: ' ' :: k) db
      = Mapping.insert (applyRecords db R) k (lastPutValue R []) :=
  applyLog_truncated_put R k db hR hk

/-- Witness for C9 at a concrete truncated WAL (`PUT a 1`, `DEL c`, then a
value-less `PUT b`). -/
theorem C9_truncated_put_stale_witness :
    KVDB.WAL.applyLog
        (encodeWAL [Record.put ['a'] ['1'], Record.del ['c']]
          ++ 'P' :: 'U' :: 'T' :: ' ' :: ['b']) []
      = Mapping.insert
          (applyRecords [] [Record.put ['a'] ['1'], Record.del ['c']]) ['b']
          (lastPutValue [Record.put ['a'] ['1'], Record.del ['c']] []) :=
  C9_truncated_put_stale _ _ _ (by decide) (by decide)

/-- Claim C10 (behavioural equivalence of the two sources): `KeyValueDB` of
src/exDB.cpp and `ExDB` of src/unnamed/part_000, with their `Storage` and
`WAL` classes, produce — from the same initial file contents and the same
sequence of `put`/`get`/`remove`/`mergeLogs` calls — the same `get` return
values, the same in-memory Mapping, and the same file contents. -/
theorem C10_implementations_equivalent (dbF walF : List Char) (ops : List Op) :
    ExDBi.ExDB.runOps (ExDBi.ExDB.construct dbF walF) ops
      = KVDB.KeyValueDB.runOps (KVDB.KeyValueDB.construct dbF walF) ops := by
  rw [exdb_construct_eq]
  exact exdb_runOps_eq ops _
